import Mathlib

set_option autoImplicit false

/-!
Formal model of `immer::map` (src/immer/map.hpp), the persistent
key/value adapter over the CHAMP trie engine, together with the engine
interface contract it consumes.

The adapter layer (the functors `project_value`, `default_value`,
`error_value`, `equal_key` and the public operations `size`, `count`,
`operator[]`, `at`, `operator==`/`operator!=`, `insert`, `set`, `erase`,
`begin`/`end`) is translated from src/immer/map.hpp.  The trie engine
`detail::hamts::champ` itself is not among the sources; it is modelled
from the specification (§3, §4.1, §4.2): the observable state of a trie
is its collection of stored entries together with the size counter; the
hash function determines only the internal tree shape and hence none of
the observable results modelled here.  The template parameters are
instantiated at their source defaults: `Equal = std::equal_to<K>` and
the values' `operator==` are decidable equality, `T{}`
(value-initialisation) is `Inhabited.default`, and C++ exceptions are
modelled with `Except`.
-/

namespace ImmerMap

variable {α σ ρ : Type} {K T : Type}

/-- Modelled from the spec: the Trie Engine `detail::hamts::champ` (absent
from the sources) is per §3 `{root: Node, size: integer}`; its observable
interface state (§4.2) is the collection of stored entries, modelled as
the list of entries reachable from the root in traversal order, the size
counter being their number. -/
structure champ (α : Type) : Type where
  entries : List α

/-- Modelled from the spec: the canonical empty trie (`impl_t::empty`),
created with `size() == 0` and no entries. -/
def champ.empty : champ α := ⟨[]⟩

/-- Modelled from the spec: §4.2 — the size counter; in the interface
model it is the number of stored entries. -/
def champ.size (t : champ α) : Nat := t.entries.length

/-- Modelled from the spec: §4.2 `get<OnFound, OnMissing>(searchKey)`
"compares candidate Entries by key-equality; returns `OnFound(entry)` if
found else `OnMissing()`".  `eqEK` is the adapter-supplied
entry-to-search-key equality. -/
def champ.get (eqEK : α → σ → Bool) (onFound : α → ρ) (onMissing : Unit → ρ)
    (t : champ α) (k : σ) : ρ :=
  match t.entries.find? (fun e => eqEK e k) with
  | some e => onFound e
  | none => onMissing ()

/-- Replacement of the first element satisfying `q` (spec §4.1: an entry
with an equal search key is replaced in place). -/
def replaceFirstBy (q : α → Bool) (v : α) : List α → List α
  | [] => []
  | e :: es => if q e then v :: es else e :: replaceFirstBy q v es

/-- Modelled from the spec: §4.2 `add(entry)` — when an entry with an
equal search key is present it is replaced (§4.1 "an Entry with an equal
search key, replace it") and the size is unchanged, otherwise the new
entry is inserted and the size grows by one.  `eqK` is search-key
equality between two entries. -/
def champ.add (eqK : α → α → Bool) (t : champ α) (v : α) : champ α :=
  if t.entries.any (fun e => eqK e v) then ⟨replaceFirstBy (fun e => eqK e v) v t.entries⟩
  else ⟨v :: t.entries⟩

/-- Modelled from the spec: §4.2 `sub(searchKey)` — removes the entry
with the given search key, "decrements size only if a key was actually
removed; if absent, returns a Trie equal to the receiver". -/
def champ.sub (eqEK : α → σ → Bool) (t : champ α) (k : σ) : champ α :=
  ⟨t.entries.eraseP (fun e => eqEK e k)⟩

/-- Modelled from the spec: §4.2 `equals(other)` — "two Tries are equal
iff they have equal size and every key present in one maps to an equal
entry in the other".  `eqEE` is the adapter-supplied entry-to-entry
equality. -/
def champ.equals (eqEE : α → α → Bool) (a b : champ α) : Bool :=
  a.size == b.size && a.entries.all (fun e => b.entries.any (fun f => eqEE e f))

/-- Mirrors `detail::constantly<T, value>`, used by `map::count`. -/
def constantly (r : ρ) : α → ρ := fun _ => r

/-- Mirrors `map::value_t = std::pair<K, T>`. -/
abbrev value_t (K T : Type) : Type := K × T

/-- Mirrors `map::project_value`: returns `v.second`. -/
def project_value (v : value_t K T) : T := v.2

/-- Mirrors `map::default_value`: returns a default-constructed value
(`static T v{}`), modelled by `Inhabited.default`. -/
def default_value [Inhabited T] : Unit → T := fun _ => (default : T)

/-- Mirrors `map::error_value`: throws `std::out_of_range{"key not
found"}`, modelled as an `Except.error`. -/
def error_value : Unit → Except String T := fun _ => Except.error "key not found"

/-- Mirrors `map::equal_key` on two entries:
`Equal{}(a.first, b.first) && a.second == b.second`, with the default
`Equal = std::equal_to<K>`. -/
def equal_key_vv [DecidableEq K] [DecidableEq T] (a b : value_t K T) : Bool :=
  decide (a.1 = b.1) && decide (a.2 = b.2)

/-- Mirrors `map::equal_key` on an entry and a search key:
`Equal{}(a.first, b)`. -/
def equal_key_vk [DecidableEq K] (a : value_t K T) (b : K) : Bool :=
  decide (a.1 = b)

/-- Modelled from the spec: §4.1 — `add`'s replace decision compares the
stored Entry's search key with the new entry's search key; for the map
adapter the search key of the entry `(k, v)` is `k`. -/
def equal_search_key [DecidableEq K] (a b : value_t K T) : Bool :=
  decide (a.1 = b.1)

/-- Mirrors `immer::map<K, T>` (src/immer/map.hpp): a wrapper around the
champ engine instantiated at entry type `value_t K T` with the functors
above (`impl_` member). -/
structure map (K T : Type) : Type where
  impl : champ (value_t K T)

/-- Mirrors the default constructor `map()`: `impl_ = impl_t::empty`. -/
def map.empty : map K T := ⟨champ.empty⟩

/-- Mirrors `map::size()`: `impl_.size`. -/
def map.size (m : map K T) : Nat := m.impl.size

/-- Mirrors `map::count(k)`:
`impl_.get<constantly<size_type,1>, constantly<size_type,0>>(k)`. -/
def map.count [DecidableEq K] (m : map K T) (k : K) : Nat :=
  m.impl.get equal_key_vk (constantly 1) (constantly 0) k

/-- Mirrors `map::operator[](k)`:
`impl_.get<project_value, default_value>(k)`. -/
def map.opIndex [DecidableEq K] [Inhabited T] (m : map K T) (k : K) : T :=
  m.impl.get equal_key_vk project_value default_value k

/-- Mirrors `map::at(k)`: `impl_.get<project_value, error_value>(k)`,
with the throwing branch embedded in `Except`. -/
def map.atKey [DecidableEq K] (m : map K T) (k : K) : Except String T :=
  m.impl.get equal_key_vk (fun v => Except.ok (project_value v)) error_value k

/-- Mirrors `map::operator==`: `impl_.equals(other.impl_)`. -/
def map.beq [DecidableEq K] [DecidableEq T] (a b : map K T) : Bool :=
  a.impl.equals equal_key_vv b.impl

/-- Mirrors `map::operator!=`: `!(*this == other)`. -/
def map.bne [DecidableEq K] [DecidableEq T] (a b : map K T) : Bool :=
  !(a.beq b)

/-- Mirrors `map::insert(value)`: `impl_.add(value)`. -/
def map.insert [DecidableEq K] (m : map K T) (v : value_t K T) : map K T :=
  ⟨m.impl.add equal_search_key v⟩

/-- Mirrors `map::set(k, v)`: `impl_.add({k, v})`. -/
def map.set [DecidableEq K] (m : map K T) (k : K) (v : T) : map K T :=
  ⟨m.impl.add equal_search_key (k, v)⟩

/-- Mirrors `map::erase(k)`: `impl_.sub(k)`. -/
def map.erase [DecidableEq K] (m : map K T) (k : K) : map K T :=
  ⟨m.impl.sub equal_key_vk k⟩

/-- Modelled from the spec: §4.4 — the iterator pair `begin()`/`end()`
ranges over one frozen snapshot and produces every stored entry exactly
once, in traversal-defined order; `toList` is that sequence of entries. -/
def map.toList (m : map K T) : List (value_t K T) := m.impl.entries

/-- Engine invariant: keys of the stored entries are pairwise distinct
(§4.2: `add` replaces rather than duplicating an existing key, so at most
one entry per key is ever stored). -/
def map.KeysDistinct (m : map K T) : Prop :=
  m.impl.entries.Pairwise (fun a b => a.1 ≠ b.1)

/-- The key-distinctness invariant is a decidable property of the stored
entries. -/
instance decKeysDistinct [DecidableEq K] (m : map K T) : Decidable m.KeysDistinct :=
  inferInstanceAs (Decidable (m.impl.entries.Pairwise (fun a b : value_t K T => a.1 ≠ b.1)))

/-- A map built by inserting the associations of `l` from left to
right, starting from the empty map. -/
def map.ofList [DecidableEq K] (l : List (value_t K T)) : map K T :=
  l.foldl (fun m kv => m.insert kv) map.empty

/-- A history of live versions: a step computes `insert`, `set` or
`erase` on one of the live versions and appends the newly constructed
version; every prior version is kept untouched in the history. -/
inductive step [DecidableEq K] [DecidableEq T] :
    List (map K T) → List (map K T) → Prop where
  | insert (vs : List (map K T)) (m : map K T) (hm : m ∈ vs) (kv : value_t K T) :
      step vs (vs ++ [m.insert kv])
  | set (vs : List (map K T)) (m : map K T) (hm : m ∈ vs) (k : K) (v : T) :
      step vs (vs ++ [m.set k v])
  | erase (vs : List (map K T)) (m : map K T) (hm : m ∈ vs) (k : K) :
      step vs (vs ++ [m.erase k])

/-- Concrete example map `{1 ↦ 10, 2 ↦ 20}` built key 1 first. -/
def mapA : map Nat Nat := (map.empty.set 1 10).set 2 20

/-- Concrete example map `{1 ↦ 10, 2 ↦ 20}` built key 2 first. -/
def mapB : map Nat Nat := (map.empty.set 2 20).set 1 10

/-- Concrete example map `{1 ↦ 11, 2 ↦ 20}`: same keys as `mapA`, a
different value at key 1. -/
def mapC : map Nat Nat := (map.empty.set 1 11).set 2 20

/-! ### Helper lemmas about the engine model -/

theorem champ.get_eq_found {eqEK : α → σ → Bool} {onF : α → ρ} {onM : Unit → ρ}
    {t : champ α} {k : σ} {e : α}
    (h : t.entries.find? (fun x => eqEK x k) = some e) :
    t.get eqEK onF onM k = onF e := by
  unfold champ.get
  rw [h]

theorem champ.get_eq_missing {eqEK : α → σ → Bool} {onF : α → ρ} {onM : Unit → ρ}
    {t : champ α} {k : σ}
    (h : t.entries.find? (fun x => eqEK x k) = none) :
    t.get eqEK onF onM k = onM () := by
  unfold champ.get
  rw [h]

theorem length_replaceFirstBy (q : α → Bool) (v : α) (l : List α) :
    (replaceFirstBy q v l).length = l.length := by
  induction l with
  | nil => rfl
  | cons e es ih =>
    by_cases h : q e = true
    · simp [replaceFirstBy, h]
    · simp [replaceFirstBy, h, ih]

theorem mem_replaceFirstBy {q : α → Bool} {v : α} {l : List α} {f : α}
    (hf : f ∈ replaceFirstBy q v l) : f ∈ l ∨ f = v := by
  induction l with
  | nil => cases hf
  | cons e es ih =>
    by_cases h : q e = true
    · rw [replaceFirstBy, if_pos h] at hf
      rcases List.mem_cons.mp hf with rfl | hf'
      · exact Or.inr rfl
      · exact Or.inl (List.mem_cons_of_mem _ hf')
    · rw [replaceFirstBy, if_neg h] at hf
      rcases List.mem_cons.mp hf with rfl | hf'
      · exact Or.inl (List.mem_cons_self _ _)
      · rcases ih hf' with h' | h'
        · exact Or.inl (List.mem_cons_of_mem _ h')
        · exact Or.inr h'

theorem find?_replaceFirstBy (q : α → Bool) (v : α) (hv : q v = true) (l : List α)
    (hl : l.any q = true) : (replaceFirstBy q v l).find? q = some v := by
  induction l with
  | nil => simp at hl
  | cons e es ih =>
    by_cases h : q e = true
    · rw [replaceFirstBy, if_pos h]
      exact List.find?_cons_of_pos _ hv
    · rw [replaceFirstBy, if_neg h, List.find?_cons_of_neg _ (by simp [h])]
      have hes : es.any q = true := by
        rcases List.any_eq_true.mp hl with ⟨x, hx, hqx⟩
        rcases List.mem_cons.mp hx with rfl | hx'
        · exact absurd hqx h
        · exact List.any_eq_true.mpr ⟨x, hx', hqx⟩
      exact ih hes

theorem entries_set [DecidableEq K] [DecidableEq T] (m : map K T) (k : K) (v : T) :
    (m.set k v).impl.entries =
      if m.impl.entries.any (fun e => equal_key_vk e k) then
        replaceFirstBy (fun e => equal_key_vk e k) (k, v) m.impl.entries
      else (k, v) :: m.impl.entries := by
  have hpred : (fun e : value_t K T => equal_search_key e (k, v))
      = fun e : value_t K T => equal_key_vk e k := by
    funext e
    simp [equal_search_key, equal_key_vk]
  rw [map.set, champ.add, hpred]
  split <;> rfl

theorem find?_entries_set [DecidableEq K] [DecidableEq T] (m : map K T) (k : K) (v : T) :
    ((m.set k v).impl.entries).find? (fun e => equal_key_vk e k) = some (k, v) := by
  rw [entries_set]
  by_cases h : m.impl.entries.any (fun e => equal_key_vk e k) = true
  · rw [if_pos h]
    exact find?_replaceFirstBy _ _ (by simp [equal_key_vk]) _ h
  · rw [if_neg h]
    exact List.find?_cons_of_pos _ (by simp [equal_key_vk])

theorem atKey_set [DecidableEq K] [DecidableEq T] (t : map K T) (k : K) (v : T) :
    (t.set k v).atKey k = Except.ok v := by
  rw [map.atKey, champ.get_eq_found (find?_entries_set t k v)]
  rfl

theorem count_set [DecidableEq K] [DecidableEq T] (t : map K T) (k : K) (v : T) :
    (t.set k v).count k = 1 := by
  rw [map.count, champ.get_eq_found (find?_entries_set t k v)]
  rfl

theorem count_eq_zero_iff [DecidableEq K] (m : map K T) (k : K) :
    m.count k = 0 ↔ ∀ e ∈ m.impl.entries, e.1 ≠ k := by
  rcases hf : m.impl.entries.find? (fun e => equal_key_vk e k) with _ | e
  · rw [map.count, champ.get_eq_missing hf]
    have hall : ∀ e ∈ m.impl.entries, e.1 ≠ k := by
      intro e he
      have := List.find?_eq_none.mp hf e he
      simpa [equal_key_vk] using this
    exact iff_of_true rfl hall
  · rw [map.count, champ.get_eq_found hf]
    have hk : e.1 = k := by simpa [equal_key_vk] using List.find?_some hf
    have he := List.mem_of_find?_eq_some hf
    exact iff_of_false (by simp [constantly]) (fun hall => absurd hk (hall e he))

theorem count_eq_one_iff [DecidableEq K] (m : map K T) (k : K) :
    m.count k = 1 ↔ ∃ e ∈ m.impl.entries, e.1 = k := by
  rcases hf : m.impl.entries.find? (fun e => equal_key_vk e k) with _ | e
  · rw [map.count, champ.get_eq_missing hf]
    have hnone : ¬ ∃ e ∈ m.impl.entries, e.1 = k := by
      rintro ⟨e, he, hk⟩
      have := List.find?_eq_none.mp hf e he
      simp [equal_key_vk] at this
      exact this hk
    exact iff_of_false (by simp [constantly]) hnone
  · rw [map.count, champ.get_eq_found hf]
    have hk : e.1 = k := by simpa [equal_key_vk] using List.find?_some hf
    have he := List.mem_of_find?_eq_some hf
    exact iff_of_true rfl ⟨e, he, hk⟩

theorem equal_key_vv_eq_true_iff [DecidableEq K] [DecidableEq T] (a b : value_t K T) :
    equal_key_vv a b = true ↔ a = b := by
  simp [equal_key_vv, Prod.ext_iff]

theorem beq_of_size_eq_of_subset [DecidableEq K] [DecidableEq T] (a b : map K T)
    (hs : a.size = b.size) (hsub : ∀ e ∈ a.impl.entries, e ∈ b.impl.entries) :
    a.beq b = true := by
  rw [map.beq, champ.equals, Bool.and_eq_true]
  refine ⟨?_, ?_⟩
  · exact beq_iff_eq.mpr hs
  · rw [List.all_eq_true]
    intro e he
    rw [List.any_eq_true]
    exact ⟨e, hsub e he, (equal_key_vv_eq_true_iff e e).mpr rfl⟩

theorem size_eq_and_subset_of_beq [DecidableEq K] [DecidableEq T] (a b : map K T)
    (h : a.beq b = true) :
    a.size = b.size ∧ ∀ e ∈ a.impl.entries, e ∈ b.impl.entries := by
  rw [map.beq, champ.equals, Bool.and_eq_true] at h
  obtain ⟨h1, h2⟩ := h
  refine ⟨beq_iff_eq.mp h1, ?_⟩
  intro e he
  obtain ⟨f, hf, hef⟩ := List.any_eq_true.mp (List.all_eq_true.mp h2 e he)
  rw [(equal_key_vv_eq_true_iff e f).mp hef]
  exact hf

theorem nodup_of_keysDistinct (a : map K T) (ha : a.KeysDistinct) :
    a.impl.entries.Nodup :=
  ha.imp fun hne hEq => hne (congrArg Prod.fst hEq)

theorem subset_rev_of_beq [DecidableEq K] [DecidableEq T] (a b : map K T)
    (ha : a.KeysDistinct) (h : a.beq b = true) :
    ∀ e ∈ b.impl.entries, e ∈ a.impl.entries := by
  obtain ⟨hs, hsub⟩ := size_eq_and_subset_of_beq a b h
  have hnd := nodup_of_keysDistinct a ha
  have hAB : a.impl.entries.toFinset ⊆ b.impl.entries.toFinset := by
    intro x hx
    rw [List.mem_toFinset] at hx ⊢
    exact hsub x hx
  have hlen : a.impl.entries.length = b.impl.entries.length := hs
  have hcard : b.impl.entries.toFinset.card ≤ a.impl.entries.toFinset.card := by
    rw [List.toFinset_card_of_nodup hnd, hlen]
    exact List.toFinset_card_le _
  have heq : a.impl.entries.toFinset = b.impl.entries.toFinset :=
    Finset.eq_of_subset_of_card_le hAB hcard
  intro e he
  have : e ∈ a.impl.entries.toFinset := by
    rw [heq, List.mem_toFinset]
    exact he
  exact List.mem_toFinset.mp this

theorem values_eq_of_keysDistinct (b : map K T) (hb : b.KeysDistinct) {k : K} {v w : T}
    (hv : (k, v) ∈ b.impl.entries) (hw : (k, w) ∈ b.impl.entries) : v = w := by
  by_contra hne
  have hne' : (k, v) ≠ (k, w) := by simp [hne]
  have hsymm : Symmetric (fun a b : value_t K T => a.1 ≠ b.1) :=
    fun x y hxy hEq => hxy hEq.symm
  exact (hb.forall hsymm hv hw hne') rfl

theorem find?_key_eq_some [DecidableEq K] (l : List (value_t K T)) (k : K) (v : T)
    (hpw : l.Pairwise fun a b => a.1 ≠ b.1) (hmem : (k, v) ∈ l) :
    l.find? (fun e => equal_key_vk e k) = some (k, v) := by
  induction l with
  | nil => cases hmem
  | cons e es ih =>
    obtain ⟨hhead, htail⟩ := List.pairwise_cons.mp hpw
    rcases List.mem_cons.mp hmem with heq | hmem'
    · rw [← heq]
      exact List.find?_cons_of_pos _ (by simp [equal_key_vk])
    · have hek : e.1 ≠ k := by
        have := hhead (k, v) hmem'
        simpa using this
      rw [List.find?_cons_of_neg _ (by simp [equal_key_vk, hek])]
      exact ih htail hmem'

theorem opIndex_eq_default_of_count_zero [DecidableEq K] [Inhabited T]
    (m : map K T) (k : K) (h : m.count k = 0) : m.opIndex k = (default : T) := by
  have hf : m.impl.entries.find? (fun e => equal_key_vk e k) = none := by
    rw [List.find?_eq_none]
    intro e he
    simp [equal_key_vk]
    exact (count_eq_zero_iff m k).mp h e he
  rw [map.opIndex, champ.get_eq_missing hf]
  rfl

theorem find?_eq_none_of_count_zero [DecidableEq K] (m : map K T) (k : K)
    (h : m.count k = 0) :
    m.impl.entries.find? (fun e => equal_key_vk e k) = none := by
  rw [List.find?_eq_none]
  intro e he
  simp [equal_key_vk]
  exact (count_eq_zero_iff m k).mp h e he

theorem mem_key_of_set [DecidableEq K] [DecidableEq T] (t : map K T) (k : K) (v : T) :
    ∃ e ∈ (t.set k v).impl.entries, e.1 = k :=
  ⟨(k, v), List.mem_of_find?_eq_some (find?_entries_set t k v), rfl⟩

theorem size_set_of_mem_key [DecidableEq K] [DecidableEq T] (m : map K T) (k : K) (v : T)
    (h : ∃ e ∈ m.impl.entries, e.1 = k) : (m.set k v).size = m.size := by
  have hany : m.impl.entries.any (fun e => equal_key_vk e k) = true := by
    obtain ⟨e, he, hk⟩ := h
    exact List.any_eq_true.mpr ⟨e, he, by simp [equal_key_vk, hk]⟩
  show (m.set k v).impl.entries.length = m.impl.entries.length
  rw [entries_set, if_pos hany, length_replaceFirstBy]

theorem erase_present [DecidableEq K] (t : map K T) (k : K) (ht : t.KeysDistinct)
    (h : ∃ e ∈ t.impl.entries, e.1 = k) :
    (t.erase k).size = t.size - 1 ∧ (t.erase k).count k = 0 := by
  obtain ⟨e, he, hk⟩ := h
  have hp : equal_key_vk e k = true := by
    simp [equal_key_vk, hk]
  constructor
  · show (t.impl.entries.eraseP (fun f => equal_key_vk f k)).length = t.impl.entries.length - 1
    exact List.length_eraseP_of_mem he hp
  · obtain ⟨a, l₁, l₂, hl₁, hpa, hl, herase⟩ :=
      @List.exists_of_eraseP _ (fun f => equal_key_vk f k) _ _ he hp
    have hak : a.1 = k := by simpa [equal_key_vk] using hpa
    rw [count_eq_zero_iff]
    intro f hf
    have hf' : f ∈ l₁ ++ l₂ := by
      have : (t.erase k).impl.entries = l₁ ++ l₂ := herase
      rwa [this] at hf
    have hpw : (l₁ ++ a :: l₂).Pairwise (fun x y : value_t K T => x.1 ≠ y.1) := by
      have := ht
      rw [map.KeysDistinct, hl] at this
      exact this
    rcases List.mem_append.mp hf' with h1 | h2
    · have := hl₁ f h1
      simpa [equal_key_vk] using this
    · have hrel := (List.pairwise_append.mp hpw).2.1
      have : a.1 ≠ f.1 := (List.pairwise_cons.mp hrel).1 f h2
      rw [hak] at this
      exact fun hfk => this hfk.symm

theorem erase_absent_entries [DecidableEq K] (t : map K T) (k : K)
    (h : t.count k = 0) :
    (t.erase k).impl.entries = t.impl.entries := by
  show t.impl.entries.eraseP (fun e => equal_key_vk e k) = t.impl.entries
  apply List.eraseP_of_forall_not
  intro e he
  simp [equal_key_vk]
  exact (count_eq_zero_iff t k).mp h e he

theorem entries_foldl_insert [DecidableEq K] (l : List (value_t K T)) :
    ∀ m : map K T, l.Pairwise (fun a b => a.1 ≠ b.1) →
      (∀ e ∈ l, ∀ f ∈ m.impl.entries, e.1 ≠ f.1) →
      (l.foldl (fun m kv => m.insert kv) m).impl.entries = l.reverse ++ m.impl.entries := by
  induction l with
  | nil =>
    intro m _ _
    simp
  | cons e es ih =>
    intro m hpw hdisj
    obtain ⟨hhead, htail⟩ := List.pairwise_cons.mp hpw
    rw [List.foldl_cons]
    have hany : m.impl.entries.any (fun f => equal_search_key f e) = false := by
      rw [List.any_eq_false]
      intro f hf
      simp [equal_search_key]
      exact fun hEq => hdisj e (List.mem_cons_self e es) f hf hEq.symm
    have hins : (m.insert e).impl.entries = e :: m.impl.entries := by
      rw [map.insert, champ.add, hany]
      rfl
    rw [ih (m.insert e) htail ?_]
    · rw [hins, List.reverse_cons, List.append_assoc]
      rfl
    · intro x hx f hf
      rw [hins] at hf
      rcases List.mem_cons.mp hf with rfl | hf'
      · exact fun hEq => (hhead x hx) hEq.symm
      · exact hdisj x (List.mem_cons_of_mem _ hx) f hf'

theorem entries_ofList [DecidableEq K] (l : List (value_t K T))
    (hd : l.Pairwise fun a b => a.1 ≠ b.1) :
    (map.ofList l).impl.entries = l.reverse := by
  have hbase : ∀ e ∈ l, ∀ f ∈ (map.empty : map K T).impl.entries, e.1 ≠ f.1 := by
    intro e _ f hf
    simp [map.empty, champ.empty] at hf
  have := entries_foldl_insert l map.empty hd hbase
  simpa [map.ofList, map.empty, champ.empty] using this

theorem pairwise_replaceFirstBy [DecidableEq K] (l : List (value_t K T)) (w : value_t K T)
    (hl : l.Pairwise fun a b => a.1 ≠ b.1) :
    (replaceFirstBy (fun e => equal_search_key e w) w l).Pairwise
      (fun a b : value_t K T => a.1 ≠ b.1) := by
  induction l with
  | nil => exact List.Pairwise.nil
  | cons e es ih =>
    obtain ⟨hhead, htail⟩ := List.pairwise_cons.mp hl
    by_cases h : equal_search_key e w = true
    · rw [replaceFirstBy, if_pos h]
      refine List.pairwise_cons.mpr ⟨?_, htail⟩
      intro f hf
      have hek : e.1 = w.1 := by simpa [equal_search_key] using h
      exact hek ▸ hhead f hf
    · rw [replaceFirstBy, if_neg h]
      refine List.pairwise_cons.mpr ⟨?_, ih htail⟩
      intro f hf
      rcases mem_replaceFirstBy hf with hf' | rfl
      · exact hhead f hf'
      · intro hEq
        exact h (by simp [equal_search_key, hEq])

theorem keysDistinct_empty : (map.empty : map K T).KeysDistinct :=
  List.Pairwise.nil

theorem keysDistinct_insert [DecidableEq K] (m : map K T) (v : value_t K T)
    (hm : m.KeysDistinct) : (m.insert v).KeysDistinct := by
  show ((m.impl.add equal_search_key v).entries).Pairwise _
  rw [champ.add]
  by_cases h : m.impl.entries.any (fun e => equal_search_key e v) = true
  · rw [if_pos h]
    exact pairwise_replaceFirstBy _ v hm
  · rw [if_neg h]
    refine List.pairwise_cons.mpr ⟨?_, hm⟩
    intro f hf hEq
    simp only [Bool.not_eq_true, List.any_eq_false] at h
    have := h f hf
    simp [equal_search_key, hEq.symm] at this

theorem keysDistinct_set [DecidableEq K] (m : map K T) (k : K) (v : T)
    (hm : m.KeysDistinct) : (m.set k v).KeysDistinct :=
  keysDistinct_insert m (k, v) hm

theorem keysDistinct_erase [DecidableEq K] (m : map K T) (k : K)
    (hm : m.KeysDistinct) : (m.erase k).KeysDistinct := by
  show (m.impl.entries.eraseP (fun e => equal_key_vk e k)).Pairwise _
  exact List.Pairwise.sublist (List.eraseP_sublist _) hm

/-! ### Claim theorems -/

/-- Claim C1: for every map `t`, key `k` and value `v`, looking up `k` in
the map obtained by inserting the association `(k, v)` into `t` finds
`v`: `at(k)` on `t.set(k, v)` returns `v` and `count(k)` on it is `1`. -/
theorem set_roundtrip [DecidableEq K] [DecidableEq T] (t : map K T) (k : K) (v : T) :
    (t.set k v).atKey k = Except.ok v ∧ (t.set k v).count k = 1 :=
  ⟨atKey_set t k v, count_set t k v⟩

/-- Claim C2: computing `insert`, `set` or `erase` on a live version does
not change any observation on that version itself: a step of the version
history only appends the newly constructed map, and every prior version
keeps its `size`, its `count`/`at`/`operator[]` results, its iteration
sequence and its equality/inequality with any other map. -/
theorem persistence_of_step [DecidableEq K] [DecidableEq T] [Inhabited T]
    (vs vs' : List (map K T)) (h : step vs vs') (i : Nat) (hi : i < vs.length)
    (k : K) (u : map K T) :
    ∃ hi' : i < vs'.length,
      (vs'.get ⟨i, hi'⟩).size = (vs.get ⟨i, hi⟩).size ∧
      (vs'.get ⟨i, hi'⟩).count k = (vs.get ⟨i, hi⟩).count k ∧
      (vs'.get ⟨i, hi'⟩).atKey k = (vs.get ⟨i, hi⟩).atKey k ∧
      (vs'.get ⟨i, hi'⟩).opIndex k = (vs.get ⟨i, hi⟩).opIndex k ∧
      (vs'.get ⟨i, hi'⟩).toList = (vs.get ⟨i, hi⟩).toList ∧
      (vs'.get ⟨i, hi'⟩).beq u = (vs.get ⟨i, hi⟩).beq u ∧
      (vs'.get ⟨i, hi'⟩).bne u = (vs.get ⟨i, hi⟩).bne u := by
  have main : ∀ x : map K T, ∃ hi' : i < (vs ++ [x]).length,
      (vs ++ [x]).get ⟨i, hi'⟩ = vs.get ⟨i, hi⟩ := by
    intro x
    have hi' : i < (vs ++ [x]).length := by
      rw [List.length_append]
      omega
    refine ⟨hi', ?_⟩
    simp only [List.get_eq_getElem]
    exact List.getElem_append_left hi
  cases h with
  | insert m hm kv =>
    obtain ⟨hi', he⟩ := main (m.insert kv)
    exact ⟨hi', by rw [he]; exact ⟨rfl, rfl, rfl, rfl, rfl, rfl, rfl⟩⟩
  | set m hm k' v =>
    obtain ⟨hi', he⟩ := main (m.set k' v)
    exact ⟨hi', by rw [he]; exact ⟨rfl, rfl, rfl, rfl, rfl, rfl, rfl⟩⟩
  | erase m hm k' =>
    obtain ⟨hi', he⟩ := main (m.erase k')
    exact ⟨hi', by rw [he]; exact ⟨rfl, rfl, rfl, rfl, rfl, rfl, rfl⟩⟩

/-- Witness for claim C2 at a concrete two-version history. -/
theorem persistence_of_step_witness :
    ∃ hi' : 0 < ([mapA] ++ [mapA.insert (3, 30)]).length,
      (([mapA] ++ [mapA.insert (3, 30)]).get ⟨0, hi'⟩).size = mapA.size ∧
      (([mapA] ++ [mapA.insert (3, 30)]).get ⟨0, hi'⟩).count 1 = mapA.count 1 ∧
      (([mapA] ++ [mapA.insert (3, 30)]).get ⟨0, hi'⟩).atKey 1 = mapA.atKey 1 ∧
      (([mapA] ++ [mapA.insert (3, 30)]).get ⟨0, hi'⟩).opIndex 1 = mapA.opIndex 1 ∧
      (([mapA] ++ [mapA.insert (3, 30)]).get ⟨0, hi'⟩).toList = mapA.toList ∧
      (([mapA] ++ [mapA.insert (3, 30)]).get ⟨0, hi'⟩).beq mapB = mapA.beq mapB ∧
      (([mapA] ++ [mapA.insert (3, 30)]).get ⟨0, hi'⟩).bne mapB = mapA.bne mapB :=
  persistence_of_step [mapA] ([mapA] ++ [mapA.insert (3, 30)])
    (step.insert [mapA] mapA (List.mem_singleton.mpr rfl) (3, 30)) 0 (by decide) 1 mapB

/-- Claim C3: `a == b` holds iff `a` and `b` have equal size and every
entry present in one is present, with equal key and value, in the other;
and `a != b` is the negation of `a == b`. -/
theorem eq_iff_same_entries [DecidableEq K] [DecidableEq T] (a b : map K T)
    (ha : a.KeysDistinct) (_hb : b.KeysDistinct) :
    (a.beq b = true ↔
      a.size = b.size ∧ (∀ e ∈ a.toList, e ∈ b.toList) ∧ (∀ e ∈ b.toList, e ∈ a.toList))
    ∧ a.bne b = !(a.beq b) := by
  refine ⟨⟨?_, ?_⟩, rfl⟩
  · intro h
    obtain ⟨hs, hsub⟩ := size_eq_and_subset_of_beq a b h
    exact ⟨hs, hsub, subset_rev_of_beq a b ha h⟩
  · rintro ⟨hs, hsub, -⟩
    exact beq_of_size_eq_of_subset a b hs hsub

/-- Witness for claim C3 at two concrete maps. -/
theorem eq_iff_same_entries_witness :
    ((mapA.beq mapB = true ↔
      mapA.size = mapB.size ∧ (∀ e ∈ mapA.toList, e ∈ mapB.toList) ∧
        (∀ e ∈ mapB.toList, e ∈ mapA.toList))
    ∧ mapA.bne mapB = !(mapA.beq mapB)) :=
  eq_iff_same_entries mapA mapB (by decide) (by decide)

/-- Claim C4: if `k` is present in `t` then `t.erase k` has size
`t.size - 1` and `k` is absent from it; if `k` is absent from `t` then
`t.erase k` is observably equal to `t`: `operator==` holds and the size
is unchanged. -/
theorem erase_inverse [DecidableEq K] [DecidableEq T] (t : map K T) (k : K)
    (ht : t.KeysDistinct) :
    (t.count k = 1 → (t.erase k).size = t.size - 1 ∧ (t.erase k).count k = 0)
    ∧ (t.count k = 0 → (t.erase k).beq t = true ∧ (t.erase k).size = t.size) := by
  constructor
  · intro h1
    exact erase_present t k ht ((count_eq_one_iff t k).mp h1)
  · intro h0
    have he := erase_absent_entries t k h0
    refine ⟨?_, ?_⟩
    · apply beq_of_size_eq_of_subset
      · show (t.erase k).impl.entries.length = t.impl.entries.length
        rw [he]
      · intro e hmem
        rw [he] at hmem
        exact hmem
    · show (t.erase k).impl.entries.length = t.impl.entries.length
      rw [he]

/-- Witness for claim C4: both the present and the absent branch at
concrete inputs. -/
theorem erase_inverse_witness :
    ((mapA.erase 1).size = mapA.size - 1 ∧ (mapA.erase 1).count 1 = 0)
    ∧ ((mapA.erase 3).beq mapA = true ∧ (mapA.erase 3).size = mapA.size) :=
  ⟨(erase_inverse mapA 1 (by decide)).1 (by decide),
   (erase_inverse mapA 3 (by decide)).2 (by decide)⟩

/-- Claim C5: inserting `(k, v₂)` into a map that was just given `(k, v₁)`
replaces the association: the size is unchanged and the lookup finds
`v₂`. -/
theorem idempotent_replace [DecidableEq K] [DecidableEq T] (t : map K T)
    (k : K) (v₁ v₂ : T) :
    ((t.set k v₁).set k v₂).size = (t.set k v₁).size
    ∧ ((t.set k v₁).set k v₂).atKey k = Except.ok v₂
    ∧ ((t.set k v₁).set k v₂).count k = 1 :=
  ⟨size_set_of_mem_key _ k v₂ (mem_key_of_set t k v₁), atKey_set _ k v₂, count_set _ k v₂⟩

/-- Claim C6: two maps built by inserting the same distinct-key
associations in different orders are equal under `operator==` and
iterate over the same multiset of entries. -/
theorem insertion_order_independence [DecidableEq K] [DecidableEq T]
    (l₁ l₂ : List (value_t K T))
    (hd : l₁.Pairwise fun a b => a.1 ≠ b.1) (hp : l₁.Perm l₂) :
    (map.ofList l₁).beq (map.ofList l₂) = true
    ∧ ((map.ofList l₁).toList).Perm ((map.ofList l₂).toList) := by
  have hsymm : ∀ {x y : value_t K T}, x.1 ≠ y.1 → y.1 ≠ x.1 := fun h hEq => h hEq.symm
  have hd₂ : l₂.Pairwise fun a b => a.1 ≠ b.1 := (hp.pairwise_iff hsymm).mp hd
  have h₁ := entries_ofList l₁ hd
  have h₂ := entries_ofList l₂ hd₂
  constructor
  · apply beq_of_size_eq_of_subset
    · show (map.ofList l₁).impl.entries.length = (map.ofList l₂).impl.entries.length
      rw [h₁, h₂, List.length_reverse, List.length_reverse]
      exact hp.length_eq
    · intro e he
      rw [h₁, List.mem_reverse] at he
      rw [h₂, List.mem_reverse]
      exact hp.mem_iff.mp he
  · show (map.ofList l₁).impl.entries.Perm (map.ofList l₂).impl.entries
    rw [h₁, h₂]
    exact (List.reverse_perm l₁).trans (hp.trans (List.reverse_perm l₂).symm)

/-- Witness for claim C6 at two concrete insertion orders. -/
theorem insertion_order_independence_witness :
    (map.ofList [((1 : Nat), (10 : Nat)), (2, 20)]).beq (map.ofList [(2, 20), (1, 10)]) = true
    ∧ ((map.ofList [((1 : Nat), (10 : Nat)), (2, 20)]).toList).Perm
        ((map.ofList [(2, 20), (1, 10)]).toList) :=
  insertion_order_independence [(1, 10), (2, 20)] [(2, 20), (1, 10)] (by decide) (by decide)

/-- Claim C7: `at(k)` returns the value associated to `k` when `k` is
contained in `m` and signals the `std::out_of_range` failure ("key not
found") exactly when `k` is not contained; the lookup is a pure read
that leaves `m` unchanged. -/
theorem at_found_or_throws [DecidableEq K] (m : map K T) (k : K)
    (hm : m.KeysDistinct) :
    (∀ v : T, (k, v) ∈ m.toList → m.atKey k = Except.ok v)
    ∧ (m.atKey k = Except.error "key not found" ↔ m.count k = 0) := by
  constructor
  · intro v hv
    rw [map.atKey, champ.get_eq_found (find?_key_eq_some m.impl.entries k v hm hv)]
    rfl
  · rcases hf : m.impl.entries.find? (fun e => equal_key_vk e k) with _ | e
    · rw [map.atKey, champ.get_eq_missing hf, map.count, champ.get_eq_missing hf]
      exact iff_of_true rfl rfl
    · rw [map.atKey, champ.get_eq_found hf, map.count, champ.get_eq_found hf]
      refine iff_of_false ?_ ?_
      · intro hcontra
        simp at hcontra
      · intro hcontra
        simp [constantly] at hcontra

/-- Witness for claim C7 at a concrete map and key. -/
theorem at_found_or_throws_witness :
    (∀ v : Nat, (1, v) ∈ mapA.toList → mapA.atKey 1 = Except.ok v)
    ∧ (mapA.atKey 1 = Except.error "key not found" ↔ mapA.count 1 = 0) :=
  at_found_or_throws mapA 1 (by decide)

/-- Claim C8: `operator[]` applied to a key absent from the map returns
the default value that the adapter supplies to the engine's missing
continuation (`default_value`, a default-constructed `T`) instead of
signaling failure; on a missing key the engine's `get` returns exactly
what the caller's `OnMissing` continuation produces. -/
theorem default_lookup [DecidableEq K] [Inhabited T] (m : map K T) (k : K)
    (h : m.count k = 0) :
    m.opIndex k = default_value ()
    ∧ ∀ (R : Type) (onF : value_t K T → R) (onM : Unit → R),
        m.impl.get equal_key_vk onF onM k = onM () := by
  have hf := find?_eq_none_of_count_zero m k h
  constructor
  · rw [map.opIndex, champ.get_eq_missing hf]
  · intro R onF onM
    exact champ.get_eq_missing hf

/-- Witness for claim C8 at a concrete map and missing key. -/
theorem default_lookup_witness :
    mapA.opIndex 3 = default_value ()
    ∧ ∀ (R : Type) (onF : value_t Nat Nat → R) (onM : Unit → R),
        mapA.impl.get equal_key_vk onF onM 3 = onM () :=
  default_lookup mapA 3 (by decide)

/-- Claim C9: map equality compares mapped values with `T`'s `operator==`
(and keys with the `Equal` functor): for maps with identical key sets
and equal size, a differing value at some shared key makes `a == b`
false, and agreement of the values at every shared key makes `a == b`
true. -/
theorem eq_compares_values [DecidableEq K] [DecidableEq T] (a b : map K T)
    (_ha : a.KeysDistinct) (hb : b.KeysDistinct)
    (hkeys : (a.toList.map Prod.fst).Perm (b.toList.map Prod.fst))
    (hsize : a.size = b.size) :
    ((∃ k v w, (k, v) ∈ a.toList ∧ (k, w) ∈ b.toList ∧ v ≠ w) → a.beq b = false)
    ∧ ((∀ k v w, (k, v) ∈ a.toList → (k, w) ∈ b.toList → v = w) → a.beq b = true) := by
  constructor
  · rintro ⟨k, v, w, hv, hw, hvw⟩
    cases hB : a.beq b with
    | false => rfl
    | true =>
      obtain ⟨-, hsub⟩ := size_eq_and_subset_of_beq a b hB
      exact absurd (values_eq_of_keysDistinct b hb (hsub _ hv) hw) hvw
  · intro hvals
    apply beq_of_size_eq_of_subset a b hsize
    intro e he
    have hkey : e.1 ∈ b.toList.map Prod.fst :=
      hkeys.mem_iff.mp (List.mem_map_of_mem Prod.fst he)
    obtain ⟨f, hf, hff⟩ := List.mem_map.mp hkey
    have hw : (e.1, f.2) ∈ b.toList := by
      have : (e.1, f.2) = f := by
        rw [← hff]
      rw [this]
      exact hf
    have hval : e.2 = f.2 := hvals e.1 e.2 f.2 he hw
    have : e = (e.1, f.2) := by
      rw [← hval]
    rw [this]
    exact hw

/-- Witness for claim C9: a differing value at a shared key separates
two concrete maps, and agreement of values makes equality hold. -/
theorem eq_compares_values_witness :
    mapA.beq mapC = false ∧ mapA.beq mapA = true :=
  ⟨(eq_compares_values mapA mapC (by decide) (by decide) (by decide) (by decide)).1
      ⟨1, 10, 11, by decide, by decide, by decide⟩,
   (eq_compares_values mapA mapA (by decide) (by decide) (List.Perm.refl _) rfl).2
      (fun _k v w hv hw => values_eq_of_keysDistinct mapA (by decide) hv hw)⟩

/-- Claim C10: for every key absent from `m`, `operator[]` returns a
value equal to a default-constructed `T`, this value is the same for
every missing key, and the missing path never signals failure. -/
theorem opIndex_missing_default [DecidableEq K] [Inhabited T] (m : map K T)
    (k₁ k₂ : K) (h₁ : m.count k₁ = 0) (h₂ : m.count k₂ = 0) :
    m.opIndex k₁ = (default : T) ∧ m.opIndex k₁ = m.opIndex k₂ := by
  have e₁ := opIndex_eq_default_of_count_zero m k₁ h₁
  have e₂ := opIndex_eq_default_of_count_zero m k₂ h₂
  exact ⟨e₁, e₁.trans e₂.symm⟩

/-- Witness for claim C10 at two concrete missing keys. -/
theorem opIndex_missing_default_witness :
    mapA.opIndex 3 = (default : Nat) ∧ mapA.opIndex 3 = mapA.opIndex 4 :=
  opIndex_missing_default mapA 3 4 (by decide) (by decide)

end ImmerMap
